import Mathlib

/-!
A shallow embedding of the `dice_parser` crate (`src/lib.rs`): its lexer,
precedence-climbing parser, and recursive evaluator, together with theorems
checking the crate's specification against this model.

Modelling conventions:

* Rust `u32` arithmetic is `ℕ` with an explicit `% 2 ^ 32` at the operations
  where release-mode Rust wraps (the lexer's digit accumulation and the
  `u32` sum in `roll_dice`).
* Rust `f32` is modelled by `F32` below: exact rationals for finite values
  plus infinities and NaN, with round-to-nearest-even applied after every
  arithmetic operation, exactly as IEEE-754 binary32 prescribes.  The sign
  of zero is not tracked (no claim depends on it).
* Rust panics (`assert_eq!`, `Option::unwrap` on `None`, rand's
  "cannot sample empty range") are explicit `panic` outcomes carrying the
  panic's message, distinct from `Result::Err` values.
* The random generator `rand::rng()` is an injected capability: an infinite
  stream `ℕ → ℕ` of raw draws; `random_range lo hi` maps the next raw draw
  uniformly-shaped into `[lo, hi]` and panics on an empty range, which is
  rand's documented contract.
* Recursion in the parser and evaluator is expressed with explicit fuel so
  that every definition is structurally recursive and kernel-computable;
  sufficiency lemmas below show the fuel chosen by the entry points is
  never exhausted.
-/

namespace DiceParser

/-! ### A model of IEEE-754 binary32 (`f32`) values -/

/-- An `f32` value: NaN, a signed infinity (`inf true` is `-∞`), or a finite
value represented by its exact rational magnitude. -/
inductive F32 where
  | nan : F32
  | inf : Bool → F32
  | fin : ℚ → F32
deriving DecidableEq

/-- Fueled floor of log₂: `log2F fuel n` is `⌊log₂ n⌋` whenever
`1 ≤ n < 2 ^ fuel` (and `0` for `n ≤ 1`). -/
def log2F : ℕ → ℕ → ℕ
  | 0, _ => 0
  | fuel + 1, n => if n ≤ 1 then 0 else log2F fuel (n / 2) + 1

/-- Fueled ceiling of log₂: least `k` with `n ≤ 2 ^ k`, for `n < 2 ^ fuel`. -/
def clog2F : ℕ → ℕ → ℕ
  | 0, _ => 0
  | fuel + 1, n => if n ≤ 1 then 0 else clog2F fuel ((n + 1) / 2) + 1

/-- Round the exact ratio `N / D` (with `D ≠ 0`) to the nearest natural
number, ties to even. -/
def roundNat2 (N D : ℕ) : ℕ :=
  let q0 := N / D
  let r := N % D
  if 2 * r < D then q0
  else if D < 2 * r then q0 + 1
  else if q0 % 2 = 0 then q0 else q0 + 1

/-- `k * 2 ^ se` as a rational. -/
def scaleQ (se : ℤ) (k : ℕ) : ℚ :=
  if 0 ≤ se then ((k * 2 ^ se.toNat : ℕ) : ℚ)
  else (k : ℚ) / ((2 ^ (-se).toNat : ℕ) : ℚ)

/-- Round the positive rational `num / den` to binary32: compute the binade
exponent `e` with `2 ^ e ≤ num / den < 2 ^ (e + 1)`, round to the grid of
multiples of `2 ^ (e - 23)` (clamped at the subnormal grid `2 ^ (-149)`),
ties to even; overflow past the largest finite value `(2^24 - 1) * 2^104`
becomes infinity.  All the heavy arithmetic is on `ℕ`. -/
def roundMag (num den : ℕ) : F32 :=
  let e : ℤ :=
    if den ≤ num then (log2F 512 (num / den) : ℤ)
    else -(clog2F 512 ((den + num - 1) / num) : ℤ)
  let se : ℤ := max (e - 23) (-149)
  if 0 ≤ se then
    let k := roundNat2 num (den * 2 ^ se.toNat)
    if 16777215 * 2 ^ 104 < k * 2 ^ se.toNat then .inf false
    else .fin ((k * 2 ^ se.toNat : ℕ) : ℚ)
  else
    let k := roundNat2 (num * 2 ^ (-se).toNat) den
    if 16777215 * 2 ^ (104 + (-se).toNat) < k then .inf false
    else .fin ((k : ℚ) / ((2 ^ (-se).toNat : ℕ) : ℚ))

/-- Round-to-nearest-even of an exact rational to a binary32 value
(rounding is symmetric under negation). -/
def roundQ (q : ℚ) : F32 :=
  if q.num = 0 then .fin 0
  else if 0 < q.num then roundMag q.num.toNat q.den
  else
    match roundMag (-q.num).toNat q.den with
    | .inf _ => .inf true
    | .fin v => .fin (-v)
    | .nan => .nan

/-- `f32` addition: exact rational sum, then rounding; IEEE special cases. -/
def addF32 : F32 → F32 → F32
  | .nan, _ => .nan
  | _, .nan => .nan
  | .inf s, .inf t => if s = t then .inf s else .nan
  | .inf s, .fin _ => .inf s
  | .fin _, .inf t => .inf t
  | .fin a, .fin b => roundQ (a + b)

/-- `f32` subtraction. -/
def subF32 : F32 → F32 → F32
  | .nan, _ => .nan
  | _, .nan => .nan
  | .inf s, .inf t => if s = t then .nan else .inf s
  | .inf s, .fin _ => .inf s
  | .fin _, .inf t => .inf (!t)
  | .fin a, .fin b => roundQ (a - b)

/-- `f32` multiplication. -/
def mulF32 : F32 → F32 → F32
  | .nan, _ => .nan
  | _, .nan => .nan
  | .inf s, .inf t => .inf (s != t)
  | .inf s, .fin b => if b = 0 then .nan else .inf (s != decide (b < 0))
  | .fin a, .inf t => if a = 0 then .nan else .inf (t != decide (a < 0))
  | .fin a, .fin b => roundQ (a * b)

/-- `f32` division.  Division of a nonzero finite value by zero yields a
signed infinity, `0 / 0` yields NaN — the IEEE behavior the crate inherits. -/
def divF32 : F32 → F32 → F32
  | .nan, _ => .nan
  | _, .nan => .nan
  | .inf _, .inf _ => .nan
  | .inf s, .fin b => .inf (s != decide (b < 0))
  | .fin _, .inf _ => .fin 0
  | .fin a, .fin b =>
    if b = 0 then (if a = 0 then .nan else .inf (decide (a < 0)))
    else roundQ (a / b)

/-- Round `n` to the nearest multiple of `step`, ties to the even multiple. -/
def roundEvenNat (n step : ℕ) : ℕ :=
  let q := n / step
  let r := n % step
  if 2 * r < step then q * step
  else if step < 2 * r then (q + 1) * step
  else if q % 2 = 0 then q * step else (q + 1) * step

/-- The natural number nearest `n` that is binary32-representable
(round-to-nearest-even on the 24-bit significand grid); correct for
`n < 2 ^ 40`, which covers the whole `u32` range. -/
def rtNat (n : ℕ) : ℕ :=
  if n ≤ 2 ^ 24 then n else roundEvenNat n (2 ^ (log2F 40 n - 23))

/-- Rust's `n as f32` for `n : u32`: round-to-nearest-even. -/
def u32_to_f32 (n : ℕ) : F32 := .fin ((rtNat n : ℕ) : ℚ)

/-- Rust's `x as u32` for `x : f32`: saturating cast — NaN and negative
values go to `0`, values above `u32::MAX` to `u32::MAX`, finite values are
truncated toward zero. -/
def f32_to_u32 : F32 → ℕ
  | .nan => 0
  | .inf s => if s then 0 else 2 ^ 32 - 1
  | .fin q => if q ≤ 0 then 0 else min (2 ^ 32 - 1) (q.num.toNat / q.den)

/-! ### Tokens and the lexer (`Lexer::new`, src/lib.rs lines 110-143)

The source first filters out all whitespace
(`input.chars().filter(|it| !it.is_whitespace())`), then walks the remaining
characters: operator characters become `Op` tokens, `d`/`D` becomes
`Op('d')`, a digit starts an inner `while` loop that accumulates a maximal
digit run into one `u32` number.  `lexGo` below is the same walk with the
inner loop's accumulator carried as an `Option ℕ` state (`some n` means a
number is being accumulated); the produced token sequence is identical.
The source pushes tokens, reverses the vector, and pops from the back,
which consumes tokens front-to-back in original order — modelled here as a
plain front-to-back list. -/

/-- A token, as in the source `enum Token`. -/
inductive Token where
  | number : ℕ → Token
  | op : Char → Token
  | eof : Token
deriving DecidableEq

/-- Rust's `char::is_whitespace`: the Unicode `White_Space` code points. -/
def isWs (c : Char) : Bool :=
  (9 ≤ c.toNat && c.toNat ≤ 13) || c.toNat == 32 || c.toNat == 133 ||
  c.toNat == 160 || c.toNat == 5760 || (8192 ≤ c.toNat && c.toNat ≤ 8202) ||
  c.toNat == 8232 || c.toNat == 8233 || c.toNat == 8239 ||
  c.toNat == 8287 || c.toNat == 12288

/-- The source's `'0'..='9'` pattern / `is_digit(10)`: an ASCII digit. -/
def isDigitChar (c : Char) : Bool := 48 ≤ c.toNat && c.toNat ≤ 57

/-- `c.to_digit(10)` for an ASCII digit. -/
def digitVal (c : Char) : ℕ := c.toNat - 48

/-- The token produced by a single non-digit character, if any: the arms
`'+' | '-' | '*' | '/' | '(' | ')'` and `'d' | 'D'` of the source match. -/
def charTok (c : Char) : Option Token :=
  if c = '+' || c = '-' || c = '*' || c = '/' || c = '(' || c = ')' then some (.op c)
  else if c = 'd' || c = 'D' then some (.op 'd')
  else none

/-- The lexer loop.  State `some n` means the inner digit-run loop of the
source is active with accumulator `n`; leaving the run (or the input ending)
pushes `Number n`.  Digit accumulation is `number * 10 + digit` on `u32`,
hence the wraparound `% 2 ^ 32`.  Any unrecognized character produces the
source's `Err(format!("Unexpected character: {}", c))`. -/
def lexGo : Option ℕ → List Char → Except String (List Token)
  | none, [] => .ok []
  | some n, [] => .ok [.number n]
  | none, c :: rest =>
    if isDigitChar c then lexGo (some (digitVal c)) rest
    else
      match charTok c with
      | some t => (lexGo none rest).map (fun ts => t :: ts)
      | none => .error ("Unexpected character: " ++ String.mk [c])
  | some n, c :: rest =>
    if isDigitChar c then lexGo (some ((n * 10 + digitVal c) % 2 ^ 32)) rest
    else
      match charTok c with
      | some t => (lexGo none rest).map (fun ts => Token.number n :: t :: ts)
      | none => .error ("Unexpected character: " ++ String.mk [c])

/-- `Lexer::new`: drop whitespace, then tokenize. -/
def lexer_new (input : List Char) : Except String (List Token) :=
  lexGo none (input.filter (fun c => !isWs c))

/-! ### The AST and the parser (src/lib.rs lines 159-250) -/

/-- The public `Expression` type: a number literal or an operator applied to
a vector of operands (the arity is not statically enforced, as in Rust). -/
inductive Expression where
  | number : ℕ → Expression
  | operation : Char → List Expression → Expression

/-- Debug rendering of a token, as Rust's `{:?}` formats it. -/
def tokenStr : Token → String
  | .number n => "Number(" ++ toString n ++ ")"
  | .op c => "Op('" ++ String.mk [c] ++ "')"
  | .eof => "Eof"

/-- `operation_priority`: the binding-power table.  The source stores the
binding powers as the `f32` literals 1.0/1.1/2.0/2.1/3.0/3.1; they are kept
here as the exact rationals 1, 11/10, … — the set of values that ever gets
compared is totally ordered the same way in `f32` and in `ℚ`, so every
comparison in the parser has the same outcome. -/
def operation_priority (op : Char) : Except String (ℚ × ℚ) :=
  if op = '+' || op = '-' then .ok (1, 11 / 10)
  else if op = '*' || op = '/' then .ok (2, 21 / 10)
  else if op = 'd' then .ok (3, 31 / 10)
  else .error ("Unknown operator: '" ++ String.mk [op] ++ "'")

/-- Outcome of a parser call: success with the remaining tokens, a returned
`Err` value, a Rust panic (with its message), or fuel exhaustion (`out`,
which the entry point's fuel choice makes unreachable — see
`parse_expression_fuel_sufficient`). -/
inductive PRes where
  | ok : Expression → List Token → PRes
  | err : String → PRes
  | panic : String → PRes
  | out : PRes

/-- The message of the `assert_eq!(lexer.next(), Token::Op(')'))` panic at
src/lib.rs line 228. -/
def assertMsg : String := "assertion failed: lexer.next() == Token::Op(close paren)"

/-- The message of `Option::unwrap` panicking on `None`. -/
def unwrapMsg : String := "called Option::unwrap on a None value"

/-- The message of rand's `random_range` panicking on an empty range. -/
def randMsg : String := "cannot sample empty range"

/-- `parse_expression(lexer, min_bp)` (src/lib.rs lines 223-250), with its
two phases fused into one function so that the recursion is structural on
the fuel.  State `none` is the function's entry: parse a primary term — a
number, or a parenthesized subexpression whose closing parenthesis is
consumed by `assert_eq!` (when the next token is not `)`, the source
panics).  State `some lhs` is the source's `loop`: peek the next token; end
of input or `)` breaks (returning `lhs` and leaving the token unconsumed); a
non-operator token is an error; an operator whose left binding power is
below `min_bp` breaks without consuming; otherwise the operator is
consumed, the right operand is parsed at the operator's right binding
power, and the two operands are folded into an `Operation` node with
exactly the two operands `vec![lhs, rhs]`.  (The lexer never stores an
`eof` token in the stream — the sentinel only arises from reading past the
end, i.e. the `[]` cases here; the `Token.eof :: _` cases are unreachable
junk-input arms, given the same meaning the source's `match` would give a
popped `Eof`.) -/
def parseF : ℕ → Option Expression → ℚ → List Token → PRes
  | 0, _, _, _ => .out
  | fuel + 1, none, minBp, ts =>
    match ts with
    | Token.number n :: rest => parseF fuel (some (Expression.number n)) minBp rest
    | Token.op c :: rest =>
      if c = '(' then
        match parseF fuel none 0 rest with
        | .ok lhs r1 =>
          match r1 with
          | Token.op c2 :: r2 =>
            if c2 = ')' then parseF fuel (some lhs) minBp r2 else .panic assertMsg
          | Token.number _ :: _ => .panic assertMsg
          | Token.eof :: _ => .panic assertMsg
          | [] => .panic assertMsg
        | e => e
      else .err ("Expected a number, found: " ++ tokenStr (Token.op c))
    | Token.eof :: _ => .err ("Expected a number, found: " ++ tokenStr Token.eof)
    | [] => .err ("Expected a number, found: " ++ tokenStr Token.eof)
  | fuel + 1, some lhs, minBp, ts =>
    match ts with
    | [] => .ok lhs ts
    | Token.op c :: rest =>
      if c = ')' then .ok lhs ts
      else
        match operation_priority c with
        | .error e => .err e
        | .ok (lbp, rbp) =>
          if lbp < minBp then .ok lhs ts
          else
            match parseF fuel none rbp rest with
            | .ok rhs r2 => parseF fuel (some (.operation c [lhs, rhs])) minBp r2
            | e => e
    | Token.eof :: _ => .ok lhs ts
    | Token.number m :: _ =>
      .err ("Expected an operator, found: " ++ tokenStr (Token.number m))

/-- `parse_expression(lexer, min_bp)`: enter `parseF` in primary state. -/
def parse_expression (fuel : ℕ) (ts : List Token) (minBp : ℚ) : PRes :=
  parseF fuel none minBp ts

/-- The `TryFrom<&str> for Expression` entry point: lex, then parse with
`min_bp = 0`.  The fuel `2 * ts.length + 2` is sufficient
(`parse_expression_fuel_sufficient`), so `out` never occurs here.  Note the
source does not require the whole token stream to be consumed. -/
def try_from (input : List Char) : PRes :=
  match lexer_new input with
  | .error e => .err e
  | .ok ts => parse_expression (2 * ts.length + 2) ts 0

/-! ### The evaluator (src/lib.rs lines 186-211 and 252-256) -/

/-- The injected random-number source: an infinite stream of raw draws. -/
abbrev RNG := ℕ → ℕ

/-- rand's `random_range(lo..=hi)`: panics (`none`) when the range is empty,
otherwise returns a value in `[lo, hi]` and the advanced generator. -/
def random_range (g : RNG) (lo hi : ℕ) : Option (ℕ × RNG) :=
  if hi < lo then none
  else some (lo + g 0 % (hi - lo + 1), fun n => g (n + 1))

/-- The `(0..amount).map(|_| rng().random_range(1..=sides))` iterator of
`roll_dice`, threading the generator; `none` is the panic on `sides = 0`
with at least one die requested. -/
def rollList (sides : ℕ) : ℕ → RNG → Option (List ℕ × RNG)
  | 0, g => some ([], g)
  | amount + 1, g =>
    match random_range g 1 sides with
    | none => none
    | some (v, g1) =>
      match rollList sides amount g1 with
      | none => none
      | some (l, g2) => some (v :: l, g2)

/-- `roll_dice(amount, sides)`: the list of individual rolls and their sum
as a `u32` (`results.iter().sum::<u32>()` wraps, hence `% 2 ^ 32`; the
individual rolls are at most `sides < 2 ^ 32` and never wrap). -/
def roll_dice (g : RNG) (amount sides : ℕ) : Option (ℕ × List ℕ × RNG) :=
  match rollList sides amount g with
  | none => none
  | some (l, g1) => some (l.sum % 2 ^ 32, l, g1)

/-- Outcome of `Expression::eval`: `Ok` value / `Err` message, each with the
generator and logger state after the call, or a panic with its message. -/
inductive EvalOut where
  | ok : F32 → RNG → Option (List ℕ) → EvalOut
  | err : String → RNG → Option (List ℕ) → EvalOut
  | panic : String → EvalOut

/-- The operator dispatch of `Expression::eval` after both operands have
been evaluated.  The `d` arm truncates both operands to `u32`, rolls, sums,
and appends the individual rolls to the logger when one is supplied
(`DiceLogger::append`, a plain `Vec::append`). -/
def evalOp (op : Char) (lhs rhs : F32) (g : RNG) (log : Option (List ℕ)) : EvalOut :=
  if op = '+' then .ok (addF32 lhs rhs) g log
  else if op = '-' then .ok (subF32 lhs rhs) g log
  else if op = '*' then .ok (mulF32 lhs rhs) g log
  else if op = '/' then .ok (divF32 lhs rhs) g log
  else if op = 'd' then
    match roll_dice g (f32_to_u32 lhs) (f32_to_u32 rhs) with
    | none => .panic randMsg
    | some (sum, rolls, g1) => .ok (u32_to_f32 sum) g1 (log.map (fun l => l ++ rolls))
  else .err ("Unknown operator: " ++ String.mk [op]) g log

/-- `Expression::eval`.  A `Number` is cast to `f32`; an `Operation`
evaluates `operands.first().unwrap()` then `operands.last().unwrap()`
(panicking on an empty operand vector), then dispatches on the operator.
Note that for a singleton operand vector both unwraps yield the same
expression, which is then evaluated twice — exactly as in the source. -/
def eval : Expression → RNG → Option (List ℕ) → EvalOut
  | .number n, g, log => .ok (u32_to_f32 n) g log
  | .operation op operands, g, log =>
    match operands with
    | [] => .panic unwrapMsg
    | x :: xs =>
      match eval x g log with
      | .ok lhs g1 log1 =>
        match eval ((x :: xs).getLast (List.cons_ne_nil x xs)) g1 log1 with
        | .ok rhs g2 log2 => evalOp op lhs rhs g2 log2
        | e => e
      | e => e
  termination_by e _ _ => sizeOf e
  decreasing_by
  · have := List.sizeOf_lt_of_mem (List.mem_cons_self x xs)
    simp only [Expression.operation.sizeOf_spec]
    omega
  · have := List.sizeOf_lt_of_mem (List.getLast_mem (List.cons_ne_nil x xs))
    simp only [Expression.operation.sizeOf_spec]
    omega

/-- The arity invariant of spec section 3: every `Operation` node carries
exactly two operands (the `Expression` type itself does not enforce it). -/
def wfB : Expression → Bool
  | .number _ => true
  | .operation _ l => l.length == 2 && l.attach.all (fun x => wfB x.1)
  termination_by e => sizeOf e
  decreasing_by
    have := List.sizeOf_lt_of_mem x.2
    simp only [Expression.operation.sizeOf_spec]
    omega

/-- No `d` operator anywhere in the expression. -/
def dFreeB : Expression → Bool
  | .number _ => true
  | .operation op l => op != 'd' && l.attach.all (fun x => dFreeB x.1)
  termination_by e => sizeOf e
  decreasing_by
    have := List.sizeOf_lt_of_mem x.2
    simp only [Expression.operation.sizeOf_spec]
    omega

/-- A state-independent evaluation outcome, applied to a state: the shape
every dice-free evaluation takes. -/
def pureOut (r : Except String F32) (g : RNG) (log : Option (List ℕ)) : EvalOut :=
  match r with
  | .ok v => .ok v g log
  | .error m => .err m g log

/-- Least-significant-first decimal digits of `n` (fueled so that the
recursion is structural; `fuel ≥ n` suffices). -/
def decDigitsF : ℕ → ℕ → List ℕ
  | 0, _ => []
  | _ + 1, 0 => []
  | fuel + 1, n + 1 => (n + 1) % 10 :: decDigitsF fuel ((n + 1) / 10)

/-- The decimal text of a natural number. -/
def decimalChars (n : ℕ) : List Char :=
  if n = 0 then ['0'] else (decDigitsF n n).reverse.map Nat.digitChar

/-- A character the lexer accepts: a digit or one of `+ - * / ( ) d D`. -/
def validChar (c : Char) : Bool := isDigitChar c || (charTok c).isSome

/-- The parsed unsigned value of a digit run (most significant first). -/
def charsVal (run : List Char) : ℕ :=
  Nat.ofDigits 10 ((run.map digitVal).reverse)

/-! ### Basic equations and helper lemmas -/

set_option maxRecDepth 8000

theorem eval_number (n : ℕ) (g : RNG) (log : Option (List ℕ)) :
    eval (.number n) g log = .ok (u32_to_f32 n) g log := by
  simp [eval]

/-- The evaluation of a well-formed (two-operand) operation node: evaluate
the first operand, then (relative to the updated state) the second, then
dispatch on the operator. -/
theorem eval_binop (op : Char) (a b : Expression) (g : RNG) (log : Option (List ℕ)) :
    eval (.operation op [a, b]) g log =
      match eval a g log with
      | .ok lhs g1 log1 =>
        match eval b g1 log1 with
        | .ok rhs g2 log2 => evalOp op lhs rhs g2 log2
        | e => e
      | e => e := by
  rw [eval]
  rfl

theorem evalOp_add (l r : F32) (g : RNG) (log : Option (List ℕ)) :
    evalOp '+' l r g log = .ok (addF32 l r) g log := by
  simp [evalOp]

theorem evalOp_sub (l r : F32) (g : RNG) (log : Option (List ℕ)) :
    evalOp '-' l r g log = .ok (subF32 l r) g log := by
  unfold evalOp
  rw [if_neg (by decide), if_pos rfl]

theorem evalOp_mul (l r : F32) (g : RNG) (log : Option (List ℕ)) :
    evalOp '*' l r g log = .ok (mulF32 l r) g log := by
  unfold evalOp
  rw [if_neg (by decide), if_neg (by decide), if_pos rfl]

theorem evalOp_div (l r : F32) (g : RNG) (log : Option (List ℕ)) :
    evalOp '/' l r g log = .ok (divF32 l r) g log := by
  unfold evalOp
  rw [if_neg (by decide), if_neg (by decide), if_neg (by decide), if_pos rfl]

theorem evalOp_d (l r : F32) (g : RNG) (log : Option (List ℕ)) :
    evalOp 'd' l r g log =
      match roll_dice g (f32_to_u32 l) (f32_to_u32 r) with
      | none => .panic randMsg
      | some (sum, rolls, g1) =>
        .ok (u32_to_f32 sum) g1 (log.map (fun l => l ++ rolls)) := by
  unfold evalOp
  rw [if_neg (by decide), if_neg (by decide), if_neg (by decide), if_neg (by decide),
    if_pos rfl]

theorem evalOp_unknown (op : Char) (l r : F32) (g : RNG) (log : Option (List ℕ))
    (h1 : op ≠ '+') (h2 : op ≠ '-') (h3 : op ≠ '*') (h4 : op ≠ '/') (h5 : op ≠ 'd') :
    evalOp op l r g log = .err ("Unknown operator: " ++ String.mk [op]) g log := by
  unfold evalOp
  rw [if_neg h1, if_neg h2, if_neg h3, if_neg h4, if_neg h5]

theorem rtNat_of_le (n : ℕ) (h : n ≤ 2 ^ 24) : rtNat n = n := by
  unfold rtNat
  rw [if_pos h]

/-- `u32` values up to `2 ^ 24` convert to `f32` exactly. -/
theorem u32_fin_ofLe (n : ℕ) (h : n ≤ 2 ^ 24) : u32_to_f32 n = .fin (n : ℚ) := by
  rw [u32_to_f32, rtNat_of_le n h]

/-- `log2F` never overshoots: `2 ^ log2F fuel n ≤ n` for `1 ≤ n < 2 ^ fuel`. -/
theorem log2F_le (fuel : ℕ) : ∀ n, 1 ≤ n → n < 2 ^ fuel → 2 ^ log2F fuel n ≤ n := by
  induction fuel with
  | zero => intro n h1 h2; simp at h2; omega
  | succ f ih =>
    intro n h1 h2
    rw [log2F]
    by_cases hn : n ≤ 1
    · simp [hn]; omega
    · rw [if_neg hn]
      have hpow : 2 ^ (f + 1) = 2 * 2 ^ f := by ring
      have hdiv : n / 2 < 2 ^ f := by omega
      have h1' : 1 ≤ n / 2 := by omega
      have := ih (n / 2) h1' hdiv
      calc 2 ^ (log2F f (n / 2) + 1) = 2 * 2 ^ log2F f (n / 2) := by ring
        _ ≤ 2 * (n / 2) := by omega
        _ ≤ n := by omega

/-- Rounding a positive `u32` to `f32` yields a positive value. -/
theorem rtNat_pos (n : ℕ) (h1 : 1 ≤ n) (h2 : n < 2 ^ 32) : 1 ≤ rtNat n := by
  unfold rtNat
  by_cases hle : n ≤ 2 ^ 24
  · rw [if_pos hle]; omega
  · rw [if_neg hle]
    have hlt : n < 2 ^ 40 := lt_of_lt_of_le h2 (by norm_num)
    have hstep : 2 ^ (log2F 40 n - 23) ≤ n := by
      calc 2 ^ (log2F 40 n - 23) ≤ 2 ^ log2F 40 n :=
            Nat.pow_le_pow_right (by norm_num) (by omega)
        _ ≤ n := log2F_le 40 n (by omega) hlt
    have hstep1 : 1 ≤ 2 ^ (log2F 40 n - 23) := Nat.one_le_two_pow
    simp only [roundEvenNat]
    have hq : 1 ≤ n / 2 ^ (log2F 40 n - 23) := (Nat.one_le_div_iff (by omega)).2 hstep
    have hqs : 1 ≤ n / 2 ^ (log2F 40 n - 23) * 2 ^ (log2F 40 n - 23) :=
      Nat.one_le_iff_ne_zero.2 (by positivity)
    split
    · exact hqs
    · split
      · nlinarith
      · split
        · exact hqs
        · nlinarith

/-- Casting a natural-valued `f32` back to `u32` saturates at `u32::MAX`. -/
theorem f32_to_u32_natCast (m : ℕ) : f32_to_u32 (.fin (m : ℚ)) = min (2 ^ 32 - 1) m := by
  simp only [f32_to_u32]
  rcases Nat.eq_zero_or_pos m with h | h
  · subst h; simp
  · rw [if_neg (not_le.2 (by exact_mod_cast h))]
    simp [Rat.num_natCast, Rat.den_natCast]

/-- Successful dice rolling: with at least one side, `rollList` always
succeeds, produces exactly `amount` rolls, and each roll is in `[1, sides]`. -/
theorem rollList_spec (s : ℕ) (hs : 1 ≤ s) :
    ∀ (a : ℕ) (g : RNG), ∃ l g2, rollList s a g = some (l, g2) ∧
      l.length = a ∧ ∀ v ∈ l, 1 ≤ v ∧ v ≤ s := by
  intro a
  induction a with
  | zero => intro g; exact ⟨[], g, rfl, rfl, by simp⟩
  | succ n ih =>
    intro g
    obtain ⟨l, g2, hroll, hlen, hmem⟩ := ih (fun n => g (n + 1))
    have hr : random_range g 1 s = some (1 + g 0 % s, fun n => g (n + 1)) := by
      unfold random_range
      rw [if_neg (by omega)]
      rw [Nat.sub_add_cancel hs]
    refine ⟨(1 + g 0 % s) :: l, g2, ?_, by simp [hlen], ?_⟩
    · simp only [rollList, hr, hroll]
    · intro v hv
      rcases List.mem_cons.1 hv with h | h
      · subst h
        have := Nat.mod_lt (g 0) (show 0 < s by omega)
        omega
      · exact hmem v h

/-- Rolling with a constant raw stream yields identical rolls. -/
theorem rollList_const (s c : ℕ) (hs : 1 ≤ s) :
    ∀ a, rollList s a (fun _ => c) =
      some (List.replicate a (1 + c % s), fun _ => c) := by
  intro a
  induction a with
  | zero => rfl
  | succ n ih =>
    have hr : random_range (fun _ => c) 1 s = some (1 + c % s, fun _ => c) := by
      unfold random_range
      rw [if_neg (by omega)]
      rw [Nat.sub_add_cancel hs]
    simp only [rollList, hr, ih, List.replicate_succ]

/-! ### Claim theorems -/

/-- C1: the claim says every unmatched opening parenthesis yields an error
value and never a panic.  On this code that is false: for the input `"(1"`
the inner parse succeeds and the `assert_eq!(lexer.next(), Token::Op(')'))`
at src/lib.rs line 228 panics.  (For the bare input `"("` the inner parse
fails first, so that particular input does return an error value.)  This
theorem evaluates the parser at both inputs, exhibiting the panic. -/
theorem C1_unmatched_paren_panics :
    try_from ['(', '1'] = .panic assertMsg ∧
    try_from ['('] = .err ("Expected a number, found: " ++ tokenStr Token.eof) := by
  constructor
  · with_unfolding_all rfl
  · with_unfolding_all rfl

/-- C2: the claim says a `d` node with a positive dice count and zero sides
returns an `InvalidDiceSpecification` error value.  On this code that is
false: there is no such check anywhere; `roll_dice` calls rand's
`random_range(1..=0)`, which panics on the empty range.  This theorem
evaluates `"1d0"`: it parses fine and its evaluation panics with rand's
empty-range message, for every generator and logger. -/
theorem C2_zero_sides_panics :
    try_from ['1', 'd', '0'] = .ok (.operation 'd' [.number 1, .number 0]) [] ∧
    ∀ (g : RNG) (log : Option (List ℕ)),
      eval (.operation 'd' [.number 1, .number 0]) g log = .panic randMsg := by
  constructor
  · with_unfolding_all rfl
  · intro g log
    have h1 : f32_to_u32 (u32_to_f32 1) = 1 := by with_unfolding_all rfl
    have h0 : f32_to_u32 (u32_to_f32 0) = 0 := by with_unfolding_all rfl
    have hroll : roll_dice g 1 0 = none := by
      simp [roll_dice, rollList, random_range]
    simp only [eval_binop, eval_number, evalOp_d, h1, h0, hroll]

theorem parse_ex1 : try_from ['2', '+', '3', '*', '4'] =
    .ok (.operation '+' [.number 2, .operation '*' [.number 3, .number 4]]) [] := by
  with_unfolding_all rfl

theorem parse_ex2 : try_from ['(', '2', '+', '3', ')', '*', '4'] =
    .ok (.operation '*' [.operation '+' [.number 2, .number 3], .number 4]) [] := by
  with_unfolding_all rfl

theorem parse_ex3 :
    try_from ['1', '5', '+', '3', '0', '0', '0', '0', '/', '(', '2', '*', '1', '0', ')'] =
    .ok (.operation '+' [.number 15,
      .operation '/' [.number 30000, .operation '*' [.number 2, .number 10]]]) [] := by
  with_unfolding_all rfl

theorem mul_3_4 : mulF32 (.fin 3) (.fin 4) = .fin 12 := by with_unfolding_all rfl

theorem add_2_12 : addF32 (.fin 2) (.fin 12) = .fin 14 := by with_unfolding_all rfl

theorem add_2_3 : addF32 (.fin 2) (.fin 3) = .fin 5 := by with_unfolding_all rfl

theorem mul_5_4 : mulF32 (.fin 5) (.fin 4) = .fin 20 := by with_unfolding_all rfl

theorem mul_2_10 : mulF32 (.fin 2) (.fin 10) = .fin 20 := by with_unfolding_all rfl

theorem div_30000_20 : divF32 (.fin 30000) (.fin 20) = .fin 1500 := by
  with_unfolding_all rfl

theorem add_15_1500 : addF32 (.fin 15) (.fin 1500) = .fin 1515 := by
  with_unfolding_all rfl

theorem eval_ex1 (g : RNG) (log : Option (List ℕ)) :
    eval (.operation '+' [.number 2, .operation '*' [.number 3, .number 4]]) g log =
      .ok (.fin 14) g log := by
  have u2 : u32_to_f32 2 = .fin 2 := by rw [u32_fin_ofLe 2 (by norm_num)]; norm_num
  have u3 : u32_to_f32 3 = .fin 3 := by rw [u32_fin_ofLe 3 (by norm_num)]; norm_num
  have u4 : u32_to_f32 4 = .fin 4 := by rw [u32_fin_ofLe 4 (by norm_num)]; norm_num
  simp only [eval_binop, eval_number, evalOp_add, evalOp_mul, u2, u3, u4,
    mul_3_4, add_2_12]

theorem eval_ex2 (g : RNG) (log : Option (List ℕ)) :
    eval (.operation '*' [.operation '+' [.number 2, .number 3], .number 4]) g log =
      .ok (.fin 20) g log := by
  have u2 : u32_to_f32 2 = .fin 2 := by rw [u32_fin_ofLe 2 (by norm_num)]; norm_num
  have u3 : u32_to_f32 3 = .fin 3 := by rw [u32_fin_ofLe 3 (by norm_num)]; norm_num
  have u4 : u32_to_f32 4 = .fin 4 := by rw [u32_fin_ofLe 4 (by norm_num)]; norm_num
  simp only [eval_binop, eval_number, evalOp_add, evalOp_mul, u2, u3, u4,
    add_2_3, mul_5_4]

/-- Composition step for state-preserving (dice-free) subexpressions. -/
theorem eval_binop_pure (op : Char) (a b : Expression) (va vb : F32)
    (ha : ∀ g log, eval a g log = .ok va g log)
    (hb : ∀ g log, eval b g log = .ok vb g log)
    (g : RNG) (log : Option (List ℕ)) :
    eval (.operation op [a, b]) g log = evalOp op va vb g log := by
  simp only [eval_binop, ha, hb]

theorem eval_num_fin (n : ℕ) (h : n ≤ 2 ^ 24) (g : RNG) (log : Option (List ℕ)) :
    eval (.number n) g log = .ok (.fin (n : ℚ)) g log := by
  rw [eval_number, u32_fin_ofLe n h]

theorem eval_ex3_mul (g : RNG) (log : Option (List ℕ)) :
    eval (.operation '*' [.number 2, .number 10]) g log = .ok (.fin 20) g log := by
  rw [eval_binop_pure '*' _ _ (.fin 2) (.fin 10)
    (fun g log => by rw [eval_num_fin 2 (by norm_num)]; norm_num)
    (fun g log => by rw [eval_num_fin 10 (by norm_num)]; norm_num),
    evalOp_mul, mul_2_10]

theorem eval_ex3_div (g : RNG) (log : Option (List ℕ)) :
    eval (.operation '/' [.number 30000, .operation '*' [.number 2, .number 10]]) g log =
      .ok (.fin 1500) g log := by
  rw [eval_binop_pure '/' _ _ (.fin 30000) (.fin 20)
    (fun g log => by rw [eval_num_fin 30000 (by norm_num)]; norm_num)
    eval_ex3_mul,
    evalOp_div, div_30000_20]

theorem eval_ex3 (g : RNG) (log : Option (List ℕ)) :
    eval (.operation '+' [.number 15,
      .operation '/' [.number 30000, .operation '*' [.number 2, .number 10]]]) g log =
      .ok (.fin 1515) g log := by
  rw [eval_binop_pure '+' _ _ (.fin 15) (.fin 1500)
    (fun g log => by rw [eval_num_fin 15 (by norm_num)]; norm_num)
    eval_ex3_div,
    evalOp_add, add_15_1500]

/-- C5: operator precedence and left-associativity follow the binding-power
table: `"2+3*4"` parses as `2 + (3 * 4)` and evaluates to `14`;
`"(2+3)*4"` parses as `(2 + 3) * 4` and evaluates to `20`;
`"15+30000/(2*10)"` evaluates to `1515.0`.  (Each evaluation holds for
every generator and logger, and leaves both untouched.) -/
theorem C5_precedence :
    (try_from ['2', '+', '3', '*', '4'] =
      .ok (.operation '+' [.number 2, .operation '*' [.number 3, .number 4]]) [] ∧
     ∀ (g : RNG) (log : Option (List ℕ)),
       eval (.operation '+' [.number 2, .operation '*' [.number 3, .number 4]]) g log =
         .ok (.fin 14) g log) ∧
    (try_from ['(', '2', '+', '3', ')', '*', '4'] =
      .ok (.operation '*' [.operation '+' [.number 2, .number 3], .number 4]) [] ∧
     ∀ (g : RNG) (log : Option (List ℕ)),
       eval (.operation '*' [.operation '+' [.number 2, .number 3], .number 4]) g log =
         .ok (.fin 20) g log) ∧
    (try_from ['1', '5', '+', '3', '0', '0', '0', '0', '/', '(', '2', '*', '1', '0', ')'] =
      .ok (.operation '+' [.number 15,
        .operation '/' [.number 30000, .operation '*' [.number 2, .number 10]]]) [] ∧
     ∀ (g : RNG) (log : Option (List ℕ)),
       eval (.operation '+' [.number 15,
         .operation '/' [.number 30000, .operation '*' [.number 2, .number 10]]]) g log =
         .ok (.fin 1515) g log) :=
  ⟨⟨parse_ex1, eval_ex1⟩, ⟨parse_ex2, eval_ex2⟩, ⟨parse_ex3, eval_ex3⟩⟩

/-- C8: a division node whose two children evaluate successfully returns
`Ok` with the floating-point quotient (it is never rejected as an error);
in particular a zero divisor is not special-cased: the result is the IEEE
value — NaN for `0 / 0`, a signed infinity otherwise. -/
theorem C8_division (a b : Expression) (g g1 g2 : RNG)
    (log L1 L2 : Option (List ℕ)) (va vb : F32)
    (ha : eval a g log = .ok va g1 L1)
    (hb : eval b g1 L1 = .ok vb g2 L2) :
    eval (.operation '/' [a, b]) g log = .ok (divF32 va vb) g2 L2 ∧
    (∀ q : ℚ, va = .fin q →
      divF32 va (.fin 0) = if q = 0 then F32.nan else F32.inf (decide (q < 0))) := by
  constructor
  · simp only [eval_binop, ha, hb, evalOp_div]
  · intro q hq
    subst hq
    simp [divF32]

/-- Witness for C8 at `1 / 0`: both children evaluate successfully and the
result is `Ok(+∞)`. -/
theorem C8_division_witness :
    eval (.operation '/' [.number 1, .number 0]) (fun _ => 0) none =
      .ok (divF32 (u32_to_f32 1) (u32_to_f32 0)) (fun _ => 0) none ∧
    divF32 (u32_to_f32 1) (u32_to_f32 0) = .inf false := by
  constructor
  · exact (C8_division (.number 1) (.number 0) _ _ _ _ _ _ _ _
      (eval_number 1 _ _) (eval_number 0 _ _)).1
  · with_unfolding_all rfl

theorem expr_sizeOf_pos (e : Expression) : 1 ≤ sizeOf e := by
  cases e <;> simp only [Expression.number.sizeOf_spec, Expression.operation.sizeOf_spec] <;> omega

theorem wfB_op (op : Char) (l : List Expression) :
    wfB (.operation op l) = true ↔ l.length = 2 ∧ ∀ x ∈ l, wfB x = true := by
  rw [wfB]
  simp [List.all_eq_true, List.mem_attach]

theorem dFreeB_op (op : Char) (l : List Expression) :
    dFreeB (.operation op l) = true ↔ op ≠ 'd' ∧ ∀ x ∈ l, dFreeB x = true := by
  rw [dFreeB]
  simp [List.all_eq_true, List.mem_attach]

theorem eval_pure_of_dfree : ∀ (n : ℕ), ∀ (e : Expression), sizeOf e ≤ n →
    wfB e = true → dFreeB e = true →
    ∃ r : Except String F32, ∀ (g : RNG) (log : Option (List ℕ)),
      eval e g log = pureOut r g log := by
  intro n
  induction n with
  | zero => intro e h _ _; have := expr_sizeOf_pos e; omega
  | succ n ih =>
    intro e hsz hwf hdf
    cases e with
    | number k => exact ⟨.ok (u32_to_f32 k), fun g log => eval_number k g log⟩
    | operation op l =>
      obtain ⟨hlen, hall⟩ := (wfB_op op l).1 hwf
      obtain ⟨hop, hdall⟩ := (dFreeB_op op l).1 hdf
      obtain ⟨a, b, rfl⟩ : ∃ a b, l = [a, b] := by
        match l, hlen with
        | [a, b], _ => exact ⟨a, b, rfl⟩
      have hsa : sizeOf a ≤ n := by
        have := List.sizeOf_lt_of_mem (show a ∈ [a, b] by simp)
        simp only [Expression.operation.sizeOf_spec] at hsz
        omega
      have hsb : sizeOf b ≤ n := by
        have := List.sizeOf_lt_of_mem (show b ∈ [a, b] by simp)
        simp only [Expression.operation.sizeOf_spec] at hsz
        omega
      obtain ⟨ra, hra⟩ := ih a hsa (hall a (by simp)) (hdall a (by simp))
      obtain ⟨rb, hrb⟩ := ih b hsb (hall b (by simp)) (hdall b (by simp))
      cases ra with
      | error m =>
        exact ⟨.error m, fun g log => by simp only [eval_binop, hra, pureOut]⟩
      | ok va =>
        cases rb with
        | error m =>
          exact ⟨.error m, fun g log => by simp only [eval_binop, hra, hrb, pureOut]⟩
        | ok vb =>
          by_cases h1 : op = '+'
          · subst h1
            exact ⟨.ok (addF32 va vb),
              fun g log => by simp only [eval_binop, hra, hrb, pureOut, evalOp_add]⟩
          by_cases h2 : op = '-'
          · subst h2
            exact ⟨.ok (subF32 va vb),
              fun g log => by simp only [eval_binop, hra, hrb, pureOut, evalOp_sub]⟩
          by_cases h3 : op = '*'
          · subst h3
            exact ⟨.ok (mulF32 va vb),
              fun g log => by simp only [eval_binop, hra, hrb, pureOut, evalOp_mul]⟩
          by_cases h4 : op = '/'
          · subst h4
            exact ⟨.ok (divF32 va vb),
              fun g log => by simp only [eval_binop, hra, hrb, pureOut, evalOp_div]⟩
          exact ⟨.error ("Unknown operator: " ++ String.mk [op]),
            fun g log => by
              simp only [eval_binop, hra, hrb, pureOut]
              rw [evalOp_unknown op va vb g log h1 h2 h3 h4 hop]⟩

/-- C6: a well-formed (all operation nodes binary) expression with no `d`
operator evaluates deterministically — there is a single outcome `r` (an
`Ok` value or an `Err` message) such that every evaluation, with any
generator and any logger, returns exactly `r` and leaves the generator and
the roll log untouched.  In particular any two evaluations return
bit-identical results and the log never changes. -/
theorem C6_deterministic (e : Expression)
    (hwf : wfB e = true) (hdf : dFreeB e = true) :
    ∃ r : Except String F32, ∀ (g : RNG) (log : Option (List ℕ)),
      eval e g log = pureOut r g log :=
  eval_pure_of_dfree (sizeOf e) e le_rfl hwf hdf

/-- Witness for C6 at `3 * 4`: the hypotheses hold and the conclusion
follows by applying the theorem. -/
theorem C6_deterministic_witness :
    wfB (.operation '*' [.number 3, .number 4]) = true ∧
    dFreeB (.operation '*' [.number 3, .number 4]) = true ∧
    ∃ r : Except String F32, ∀ (g : RNG) (log : Option (List ℕ)),
      eval (.operation '*' [.number 3, .number 4]) g log = pureOut r g log := by
  refine ⟨?_, ?_, C6_deterministic _ ?_ ?_⟩ <;> simp [wfB, dFreeB]

theorem eval_nil (op : Char) (g : RNG) (log : Option (List ℕ)) :
    eval (.operation op []) g log = .panic unwrapMsg := by
  rw [eval]

theorem eval_cons (op : Char) (x : Expression) (xs : List Expression)
    (g : RNG) (log : Option (List ℕ)) :
    eval (.operation op (x :: xs)) g log =
      match eval x g log with
      | .ok lhs g1 log1 =>
        match eval ((x :: xs).getLast (List.cons_ne_nil x xs)) g1 log1 with
        | .ok rhs g2 log2 => evalOp op lhs rhs g2 log2
        | e => e
      | e => e := by
  rw [eval]

theorem evalOp_log (op : Char) (lhs rhs : F32) (g : RNG) (l : List ℕ) :
    (∃ m, evalOp op lhs rhs g (some l) = .panic m) ∨
    (∃ v g2 Δ, evalOp op lhs rhs g (some l) = .ok v g2 (some (l ++ Δ))) ∨
    (∃ m g2 Δ, evalOp op lhs rhs g (some l) = .err m g2 (some (l ++ Δ))) := by
  unfold evalOp
  split_ifs
  · exact .inr (.inl ⟨addF32 lhs rhs, g, [], by simp⟩)
  · exact .inr (.inl ⟨subF32 lhs rhs, g, [], by simp⟩)
  · exact .inr (.inl ⟨mulF32 lhs rhs, g, [], by simp⟩)
  · exact .inr (.inl ⟨divF32 lhs rhs, g, [], by simp⟩)
  · cases hroll : roll_dice g (f32_to_u32 lhs) (f32_to_u32 rhs) with
    | none => exact .inl ⟨randMsg, rfl⟩
    | some t =>
      obtain ⟨sum, rolls, g1⟩ := t
      exact .inr (.inl ⟨u32_to_f32 sum, g1, rolls, by simp⟩)
  · exact .inr (.inr ⟨"Unknown operator: " ++ String.mk [op], g, [], by simp⟩)

theorem eval_log_extends : ∀ (n : ℕ) (e : Expression), sizeOf e ≤ n →
    ∀ (g : RNG) (l : List ℕ),
    (∃ m, eval e g (some l) = .panic m) ∨
    (∃ v g2 Δ, eval e g (some l) = .ok v g2 (some (l ++ Δ))) ∨
    (∃ m g2 Δ, eval e g (some l) = .err m g2 (some (l ++ Δ))) := by
  intro n
  induction n with
  | zero => intro e h; have := expr_sizeOf_pos e; omega
  | succ n ih =>
    intro e hsz g l
    cases e with
    | number k =>
      exact .inr (.inl ⟨u32_to_f32 k, g, [], by rw [eval_number]; simp⟩)
    | operation op operands =>
      cases operands with
      | nil => exact .inl ⟨unwrapMsg, eval_nil op g (some l)⟩
      | cons x xs =>
        have hsa : sizeOf x ≤ n := by
          have := List.sizeOf_lt_of_mem (List.mem_cons_self x xs)
          simp only [Expression.operation.sizeOf_spec] at hsz
          omega
        have hsy : sizeOf ((x :: xs).getLast (List.cons_ne_nil x xs)) ≤ n := by
          have := List.sizeOf_lt_of_mem (List.getLast_mem (List.cons_ne_nil x xs))
          simp only [Expression.operation.sizeOf_spec] at hsz
          omega
        rcases ih x hsa g l with ⟨m, hm⟩ | ⟨v, g2, Δ, hv⟩ | ⟨m, g2, Δ, hm⟩
        · exact .inl ⟨m, by simp only [eval_cons, hm]⟩
        · rcases ih ((x :: xs).getLast (List.cons_ne_nil x xs)) hsy g2 (l ++ Δ)
            with ⟨m2, hm2⟩ | ⟨v2, g3, Δ2, hv2⟩ | ⟨m2, g3, Δ2, hm2⟩
          · exact .inl ⟨m2, by simp only [eval_cons, hv, hm2]⟩
          · rcases evalOp_log op v v2 g3 (l ++ Δ ++ Δ2) with
              ⟨m3, hop⟩ | ⟨v3, g4, Δ3, hop⟩ | ⟨m3, g4, Δ3, hop⟩
            · exact .inl ⟨m3, by simp only [eval_cons, hv, hv2, hop]⟩
            · refine .inr (.inl ⟨v3, g4, Δ ++ Δ2 ++ Δ3, ?_⟩)
              simp only [eval_cons, hv, hv2]
              simpa only [List.append_assoc] using hop
            · refine .inr (.inr ⟨m3, g4, Δ ++ Δ2 ++ Δ3, ?_⟩)
              simp only [eval_cons, hv, hv2]
              simpa only [List.append_assoc] using hop
          · exact .inr (.inr ⟨m2, g3, Δ ++ Δ2,
              by simp only [eval_cons, hv, hm2, List.append_assoc]⟩)
        · exact .inr (.inr ⟨m, g2, Δ, by simp only [eval_cons, hm]⟩)

/-- C7: evaluation only ever appends to a supplied roll log.  Whenever
`eval` returns (as `Ok` or as `Err`), the logger is still present and its
new contents extend the previous contents `l` by some suffix `Δ` — so a
log reused across evaluations simply accumulates entries in roll order. -/
theorem C7_append_only (e : Expression) (g : RNG) (l : List ℕ) :
    (∀ v g2 L, eval e g (some l) = .ok v g2 L → ∃ Δ, L = some (l ++ Δ)) ∧
    (∀ m g2 L, eval e g (some l) = .err m g2 L → ∃ Δ, L = some (l ++ Δ)) := by
  have h := eval_log_extends (sizeOf e) e le_rfl g l
  constructor
  · intro v g2 L hL
    rcases h with ⟨m, hm⟩ | ⟨v2, g3, Δ, hv⟩ | ⟨m, g3, Δ, hm⟩
    · rw [hL] at hm; cases hm
    · rw [hL] at hv
      injection hv with _ _ h3
      exact ⟨Δ, h3⟩
    · rw [hL] at hm; cases hm
  · intro m g2 L hL
    rcases h with ⟨m2, hm⟩ | ⟨v, g3, Δ, hv⟩ | ⟨m2, g3, Δ, hm⟩
    · rw [hL] at hm; cases hm
    · rw [hL] at hv; cases hv
    · rw [hL] at hm
      injection hm with _ _ h3
      exact ⟨Δ, h3⟩

theorem roll_2_6_const : roll_dice (fun _ => 0) 2 6 = some (2, [1, 1], fun _ => 0) := by
  rw [roll_dice, rollList_const 6 0 (by norm_num) 2]
  norm_num [List.replicate]

theorem eval_2d6_const :
    eval (.operation 'd' [.number 2, .number 6]) (fun _ => 0) (some [5]) =
      .ok (.fin 2) (fun _ => 0) (some [5, 1, 1]) := by
  have hf2 : f32_to_u32 (.fin (2 : ℚ)) = 2 := by with_unfolding_all rfl
  have hf6 : f32_to_u32 (.fin (6 : ℚ)) = 6 := by with_unfolding_all rfl
  have u2 : u32_to_f32 2 = .fin 2 := by rw [u32_fin_ofLe 2 (by norm_num)]; norm_num
  have u6 : u32_to_f32 6 = .fin 6 := by rw [u32_fin_ofLe 6 (by norm_num)]; norm_num
  simp only [eval_binop, eval_number, u2, u6, evalOp_d, hf2, hf6, roll_2_6_const]
  norm_num

/-- Witness for C7: evaluating `2d6` with the all-zeros generator on a log
holding `[5]` returns with the log `[5, 1, 1]`, an extension of `[5]`. -/
theorem C7_append_only_witness :
    ∃ Δ, (some [5, 1, 1] : Option (List ℕ)) = some ([5] ++ Δ) :=
  (C7_append_only (.operation 'd' [.number 2, .number 6]) (fun _ => 0) [5]).1
    (.fin 2) (fun _ => 0) (some [5, 1, 1]) eval_2d6_const

theorem evalOp_ne_unwrap (op : Char) (l r : F32) (g : RNG) (log : Option (List ℕ)) :
    evalOp op l r g log ≠ .panic unwrapMsg := by
  unfold evalOp
  split_ifs <;> try simp
  cases roll_dice g (f32_to_u32 l) (f32_to_u32 r) with
  | none =>
    intro h
    injection h with h
    exact absurd h (by decide)
  | some t =>
    obtain ⟨sum, rolls, g1⟩ := t
    simp

/-- Every successful `parseF` result is a well-formed expression, provided
the carried left-hand side (if any) is: the parser only ever builds
`Operation` nodes with exactly two operands. -/
theorem parseF_wf : ∀ (fuel : ℕ) (st : Option Expression) (bp : ℚ) (ts : List Token)
    (e : Expression) (r : List Token),
    (∀ lhs, st = some lhs → wfB lhs = true) →
    parseF fuel st bp ts = .ok e r → wfB e = true := by
  intro fuel
  induction fuel with
  | zero => intro st bp ts e r _ h; simp [parseF] at h
  | succ fuel ih =>
    intro st bp ts e r hst hp
    cases st with
    | none =>
      cases ts with
      | nil => simp [parseF] at hp
      | cons t rest =>
        cases t with
        | number n =>
          simp only [parseF] at hp
          refine ih _ _ _ _ _ (fun lhs h => ?_) hp
          injection h with h
          subst h
          simp [wfB]
        | op c =>
          simp only [parseF] at hp
          by_cases hc : c = '('
          · rw [if_pos hc] at hp
            cases hin : parseF fuel none 0 rest with
            | ok lhs r1 =>
              have hwl : wfB lhs = true := ih _ _ _ _ _ (fun _ h => by cases h) hin
              cases r1 with
              | nil => simp [hin] at hp
              | cons t2 r2 =>
                cases t2 with
                | op c2 =>
                  simp only [hin] at hp
                  by_cases hc2 : c2 = ')'
                  · rw [if_pos hc2] at hp
                    refine ih _ _ _ _ _ (fun l2 h => ?_) hp
                    injection h with h
                    subst h
                    exact hwl
                  · rw [if_neg hc2] at hp; cases hp
                | number m => simp [hin] at hp
                | eof => simp [hin] at hp
            | err m => simp [hin] at hp
            | panic m => simp [hin] at hp
            | out => simp [hin] at hp
          · rw [if_neg hc] at hp; cases hp
        | eof => simp [parseF] at hp
    | some lhs =>
      have hwl : wfB lhs = true := hst lhs rfl
      cases ts with
      | nil =>
        simp only [parseF] at hp
        cases hp
        exact hwl
      | cons t rest =>
        cases t with
        | op c =>
          simp only [parseF] at hp
          by_cases hc : c = ')'
          · rw [if_pos hc] at hp; cases hp; exact hwl
          · rw [if_neg hc] at hp
            cases hpri : operation_priority c with
            | error m => simp [hpri] at hp
            | ok p =>
              obtain ⟨lbp, rbp⟩ := p
              simp only [hpri] at hp
              by_cases hbp : lbp < bp
              · rw [if_pos hbp] at hp; cases hp; exact hwl
              · rw [if_neg hbp] at hp
                cases hin : parseF fuel none rbp rest with
                | ok rhs r2 =>
                  simp only [hin] at hp
                  have hwr : wfB rhs = true := ih _ _ _ _ _ (fun _ h => by cases h) hin
                  refine ih _ _ _ _ _ (fun l2 h => ?_) hp
                  injection h with h
                  subst h
                  refine (wfB_op _ _).2 ⟨rfl, ?_⟩
                  intro x hx
                  rcases List.mem_cons.1 hx with rfl | hx2
                  · exact hwl
                  · rcases List.mem_cons.1 hx2 with rfl | hx3
                    · exact hwr
                    · cases hx3
                | err m => simp [hin] at hp
                | panic m => simp [hin] at hp
                | out => simp [hin] at hp
        | eof =>
          simp only [parseF] at hp
          cases hp
          exact hwl
        | number m => simp [parseF] at hp

theorem eval_no_unwrap : ∀ (n : ℕ) (e : Expression), sizeOf e ≤ n → wfB e = true →
    ∀ (g : RNG) (log : Option (List ℕ)), eval e g log ≠ .panic unwrapMsg := by
  intro n
  induction n with
  | zero => intro e h; have := expr_sizeOf_pos e; omega
  | succ n ih =>
    intro e hsz hwf g log hcontra
    cases e with
    | number k => rw [eval_number] at hcontra; cases hcontra
    | operation op l =>
      obtain ⟨hlen, hall⟩ := (wfB_op op l).1 hwf
      obtain ⟨a, b, rfl⟩ : ∃ a b, l = [a, b] := by
        match l, hlen with
        | [a, b], _ => exact ⟨a, b, rfl⟩
      have hsa : sizeOf a ≤ n := by
        have := List.sizeOf_lt_of_mem (show a ∈ [a, b] by simp)
        simp only [Expression.operation.sizeOf_spec] at hsz
        omega
      have hsb : sizeOf b ≤ n := by
        have := List.sizeOf_lt_of_mem (show b ∈ [a, b] by simp)
        simp only [Expression.operation.sizeOf_spec] at hsz
        omega
      rw [eval_binop] at hcontra
      cases ha : eval a g log with
      | ok va g1 log1 =>
        simp only [ha] at hcontra
        cases hb : eval b g1 log1 with
        | ok vb g2 log2 =>
          simp only [hb] at hcontra
          exact evalOp_ne_unwrap op va vb g2 log2 hcontra
        | err m g2 log2 => simp only [hb] at hcontra; cases hcontra
        | panic m =>
          simp only [hb] at hcontra
          injection hcontra with h
          subst h
          exact ih b hsb (hall b (by simp)) g1 log1 hb
      | err m g1 log1 => simp only [ha] at hcontra; cases hcontra
      | panic m =>
        simp only [ha] at hcontra
        injection hcontra with h
        subst h
        exact ih a hsa (hall a (by simp)) g log ha

/-- C10: every expression the entry point produces satisfies the arity
invariant — each `Operation` node has exactly two operands — and
consequently the `first()/last()` unwraps in `eval` can never raise the
unwrap panic on a parser-produced AST (even though `Expression` itself does
not enforce the arity). -/
theorem C10_parser_invariant (s : List Char) (e : Expression) (r : List Token)
    (h : try_from s = .ok e r) :
    wfB e = true ∧ ∀ (g : RNG) (log : Option (List ℕ)),
      eval e g log ≠ .panic unwrapMsg := by
  have hwf : wfB e = true := by
    unfold try_from at h
    cases hl : lexer_new s with
    | error m => rw [hl] at h; cases h
    | ok ts =>
      rw [hl] at h
      exact parseF_wf _ _ _ _ _ _ (fun _ hh => by cases hh) h
  exact ⟨hwf, fun g log => eval_no_unwrap (sizeOf e) e le_rfl hwf g log⟩

/-- Witness for C10 at the input `"1+2"`. -/
theorem C10_parser_invariant_witness :
    wfB (.operation '+' [.number 1, .number 2]) = true ∧
    ∀ (g : RNG) (log : Option (List ℕ)),
      eval (.operation '+' [.number 1, .number 2]) g log ≠ .panic unwrapMsg :=
  C10_parser_invariant ['1', '+', '2'] (.operation '+' [.number 1, .number 2]) []
    (by with_unfolding_all rfl)

/-- C3, counterexample to the claim as stated.  The claim asserts, for all
`count, sides` with `sides ≥ 1`, that each logged roll is in `[1, sides]`,
that the node's result equals the sum of exactly `count` newly logged
values, and that the log grows by exactly `count`.  All three parts fail at
`count = 16777217 = 2^24 + 1`, `sides = 16777219`: both operands pass
through `f32` (`16777217 as f32` rounds to `2^24`, `16777219 as f32` rounds
to `16777220`), so only `16777216` dice are rolled, a roll of `16777220 >
sides` occurs (the raw-draw stream is constant `16777219`), and the `u32`
sum `16777216 * 16777220` wraps modulo `2^32`, so the result `67108864.0`
is not the sum of the logged values. -/
theorem C3_counterexample :
    eval (.operation 'd' [.number 16777217, .number 16777219]) (fun _ => 16777219)
        (some []) =
      .ok (.fin 67108864) (fun _ => 16777219)
        (some (List.replicate 16777216 16777220)) ∧
    (List.replicate (16777216 : ℕ) (16777220 : ℕ)).length ≠ 16777217 ∧
    (16777220 : ℕ) ∈ List.replicate 16777216 (16777220 : ℕ) ∧
    ¬((16777220 : ℕ) ≤ 16777219) ∧
    (List.replicate (16777216 : ℕ) (16777220 : ℕ)).sum ≠ 67108864 := by
  have hsum : (List.replicate (16777216 : ℕ) (16777220 : ℕ)).sum =
      16777216 * 16777220 := by
    rw [List.sum_replicate, smul_eq_mul]
  refine ⟨?_, ?_, List.mem_replicate.2 ⟨by norm_num, rfl⟩, by norm_num, ?_⟩
  · have hcount : f32_to_u32 (u32_to_f32 16777217) = 16777216 := by
      with_unfolding_all rfl
    have hsides : f32_to_u32 (u32_to_f32 16777219) = 16777220 := by
      with_unfolding_all rfl
    have hone : 1 + 16777219 % 16777220 = 16777220 := by norm_num
    have hroll : rollList 16777220 16777216 (fun _ => 16777219) =
        some (List.replicate 16777216 16777220, fun _ => 16777219) := by
      have h := rollList_const 16777220 16777219 (by norm_num) 16777216
      rw [hone] at h
      exact h
    have hmod : (16777216 * 16777220 : ℕ) % 2 ^ 32 = 67108864 := by norm_num
    have hrd : roll_dice (fun _ => 16777219) 16777216 16777220 =
        some (67108864, List.replicate 16777216 16777220, fun _ => 16777219) := by
      rw [roll_dice]
      simp only [hroll]
      rw [hsum, hmod]
    have hval : u32_to_f32 67108864 = .fin 67108864 := by with_unfolding_all rfl
    simp only [eval_binop, eval_number, evalOp_d, hcount, hsides, hrd, hval]
    simp only [Option.map_some', List.nil_append]
  · simp only [List.length_replicate]
    norm_num
  · rw [hsum]
    norm_num

/-- C3, amended: for `count, sides` in `u32` range with `sides ≥ 1`,
evaluating `count d sides` with a log supplied always succeeds, and with
`count' = count as f32 as u32` and `sides' = sides as f32 as u32` (equal to
`count`/`sides` whenever those are at most `2^24`): the log grows by
exactly `count'` rolls, each logged roll lies in `[1, sides']`, and the
node's result is the `f32` value of the `u32` (wrapping) sum of exactly the
newly logged rolls. -/
theorem C3_amended (count sides : ℕ) (g : RNG) (l : List ℕ)
    (hs : 1 ≤ sides) (hc32 : count < 2 ^ 32) (hs32 : sides < 2 ^ 32) :
    ∃ Δ g2,
      eval (.operation 'd' [.number count, .number sides]) g (some l) =
        .ok (u32_to_f32 (Δ.sum % 2 ^ 32)) g2 (some (l ++ Δ)) ∧
      Δ.length = f32_to_u32 (u32_to_f32 count) ∧
      ∀ v ∈ Δ, 1 ≤ v ∧ v ≤ f32_to_u32 (u32_to_f32 sides) := by
  have hss1 : 1 ≤ f32_to_u32 (u32_to_f32 sides) := by
    rw [u32_to_f32, f32_to_u32_natCast]
    have h1 := rtNat_pos sides hs hs32
    omega
  obtain ⟨Δ, g2, hroll, hlen, hmem⟩ :=
    rollList_spec (f32_to_u32 (u32_to_f32 sides)) hss1 (f32_to_u32 (u32_to_f32 count)) g
  refine ⟨Δ, g2, ?_, hlen, hmem⟩
  have hrd : roll_dice g (f32_to_u32 (u32_to_f32 count)) (f32_to_u32 (u32_to_f32 sides)) =
      some (Δ.sum % 2 ^ 32, Δ, g2) := by
    rw [roll_dice, hroll]
  simp only [eval_binop, eval_number, evalOp_d, hrd]
  simp

/-- Witness for the amended C3 at `2 d 6` with the all-zeros generator. -/
theorem C3_amended_witness :
    (1 : ℕ) ≤ 6 ∧
    ∃ Δ g2,
      eval (.operation 'd' [.number 2, .number 6]) (fun _ => 0) (some []) =
        .ok (u32_to_f32 (Δ.sum % 2 ^ 32)) g2 (some ([] ++ Δ)) ∧
      Δ.length = f32_to_u32 (u32_to_f32 2) ∧
      ∀ v ∈ Δ, 1 ≤ v ∧ v ≤ f32_to_u32 (u32_to_f32 6) :=
  ⟨by norm_num,
   C3_amended 2 6 (fun _ => 0) [] (by norm_num) (by norm_num) (by norm_num)⟩

end DiceParser

namespace DiceParser

theorem lexGo_flush (l : List Char) (n : ℕ)
    (h : ∀ c, l.head? = some c → isDigitChar c = false) :
    lexGo (some n) l = (lexGo none l).map (fun ts => Token.number n :: ts) := by
  cases l with
  | nil => rfl
  | cons c r =>
    have hc : isDigitChar c = false := h c rfl
    simp only [lexGo, hc, Bool.false_eq_true, if_false]
    cases ht : charTok c with
    | some t =>
      cases hres : lexGo none r with
      | ok ts => simp [Except.map, hres]
      | error m => simp [Except.map, hres]
    | none => rfl

theorem lexGo_run (run : List Char) : ∀ (acc : ℕ) (rest : List Char),
    (∀ c ∈ run, isDigitChar c = true) →
    (∀ c, rest.head? = some c → isDigitChar c = false) →
    lexGo (some acc) (run ++ rest) =
      (lexGo none rest).map (fun ts =>
        Token.number (List.foldl (fun a c => (a * 10 + digitVal c) % 2 ^ 32) acc run) :: ts) := by
  induction run with
  | nil =>
    intro acc rest _ hrest
    simpa using lexGo_flush rest acc hrest
  | cons c r ih =>
    intro acc rest hdig hrest
    have hc : isDigitChar c = true := hdig c (by simp)
    simp only [List.cons_append, lexGo, hc, if_true, List.foldl_cons]
    exact ih _ rest (fun x hx => hdig x (by simp [hx])) hrest

theorem foldl_pure_digits (ds : List ℕ) : ∀ acc,
    List.foldl (fun a d => a * 10 + d) acc ds =
      acc * 10 ^ ds.length + Nat.ofDigits 10 ds.reverse := by
  induction ds with
  | nil => intro acc; simp
  | cons d ds ih =>
    intro acc
    simp only [List.foldl_cons, ih, List.reverse_cons, List.length_cons]
    rw [Nat.ofDigits_append]
    simp only [Nat.ofDigits_singleton, List.length_reverse]
    ring

theorem foldl_pure_congr (ds : List ℕ) (m : ℕ) : ∀ a b, a % m = b % m →
    (List.foldl (fun x d => x * 10 + d) a ds) % m =
      (List.foldl (fun x d => x * 10 + d) b ds) % m := by
  induction ds with
  | nil => intro a b h; simpa using h
  | cons d ds ih =>
    intro a b h
    simp only [List.foldl_cons]
    refine ih _ _ ?_
    conv_lhs => rw [Nat.add_mod, Nat.mul_mod, h]
    conv_rhs => rw [Nat.add_mod, Nat.mul_mod]

theorem foldl_mod_eq (m : ℕ) (hm : 0 < m) (ds : List ℕ) : ∀ acc, acc < m →
    List.foldl (fun a d => (a * 10 + d) % m) acc ds =
      (List.foldl (fun a d => a * 10 + d) acc ds) % m := by
  induction ds with
  | nil => intro acc hacc; simp [Nat.mod_eq_of_lt hacc]
  | cons d ds ih =>
    intro acc hacc
    simp only [List.foldl_cons]
    rw [ih _ (Nat.mod_lt _ hm)]
    exact foldl_pure_congr ds m _ _ (Nat.mod_mod_of_dvd _ dvd_rfl)

end DiceParser

namespace DiceParser

theorem digitVal_lt_ten (c : Char) (h : isDigitChar c = true) : digitVal c < 10 := by
  simp only [isDigitChar, Bool.and_eq_true, decide_eq_true_eq] at h
  unfold digitVal
  omega

theorem charsVal_cons (c : Char) (r : List Char) :
    charsVal (c :: r) = digitVal c * 10 ^ r.length + charsVal r := by
  unfold charsVal
  simp only [List.map_cons, List.reverse_cons]
  rw [Nat.ofDigits_append]
  simp only [Nat.ofDigits_singleton, List.length_reverse, List.length_map]
  ring

/-- A nonempty maximal digit run becomes a single `Number` token holding
its parsed (wrapped to `u32`) value. -/
theorem lexGo_number (run rest : List Char) (hne : run ≠ [])
    (hdig : ∀ c ∈ run, isDigitChar c = true)
    (hrest : ∀ c, rest.head? = some c → isDigitChar c = false) :
    lexGo none (run ++ rest) =
      (lexGo none rest).map (fun ts => Token.number (charsVal run % 2 ^ 32) :: ts) := by
  obtain ⟨c, r, rfl⟩ := List.exists_cons_of_ne_nil hne
  have hc : isDigitChar c = true := hdig c (by simp)
  simp only [List.cons_append, lexGo, hc, if_true, List.append_eq]
  rw [lexGo_run r (digitVal c) rest (fun x hx => hdig x (by simp [hx])) hrest]
  have hval : List.foldl (fun a c => (a * 10 + digitVal c) % 2 ^ 32) (digitVal c) r =
      charsVal (c :: r) % 2 ^ 32 := by
    have h1 : List.foldl (fun a c => (a * 10 + digitVal c) % 2 ^ 32) (digitVal c) r =
        List.foldl (fun a d => (a * 10 + d) % 2 ^ 32) (digitVal c) (r.map digitVal) := by
      rw [List.foldl_map]
    rw [h1, foldl_mod_eq (2 ^ 32) (by norm_num) _ _
      (lt_of_lt_of_le (digitVal_lt_ten c hc) (by norm_num)),
      foldl_pure_digits]
    rw [charsVal_cons]
    unfold charsVal
    simp [List.length_map]
  rw [hval]

end DiceParser

namespace DiceParser

/-- Lexing (from either state) succeeds exactly when every character is a
digit or one of the recognized operator characters. -/
theorem lexGo_ok_iff (l : List Char) : ∀ st : Option ℕ,
    (∃ ts, lexGo st l = .ok ts) ↔ ∀ c ∈ l, validChar c = true := by
  induction l with
  | nil =>
    intro st
    cases st <;> simp [lexGo]
  | cons c r ih =>
    intro st
    by_cases hd : isDigitChar c = true
    · have hvc : validChar c = true := by simp [validChar, hd]
      cases st <;>
        simp only [lexGo, hd, if_true] <;>
        rw [ih] <;>
        simp [hvc]
    · rw [Bool.not_eq_true] at hd
      cases ht : charTok c with
      | some t =>
        have hvc : validChar c = true := by simp [validChar, ht]
        cases st <;>
          simp only [lexGo, hd, Bool.false_eq_true, if_false, ht] <;>
          constructor <;> intro h
        · obtain ⟨ts, hts⟩ := h
          intro x hx
          rcases List.mem_cons.1 hx with rfl | hx2
          · exact hvc
          · refine ((ih none).1 ?_) x hx2
            cases hres : lexGo none r with
            | ok ts2 => exact ⟨ts2, rfl⟩
            | error m => rw [hres] at hts; simp [Except.map] at hts
        · obtain ⟨ts2, hts2⟩ := (ih none).2 (fun x hx => h x (by simp [hx]))
          exact ⟨t :: ts2, by rw [hts2]; rfl⟩
        · obtain ⟨ts, hts⟩ := h
          intro x hx
          rcases List.mem_cons.1 hx with rfl | hx2
          · exact hvc
          · refine ((ih none).1 ?_) x hx2
            cases hres : lexGo none r with
            | ok ts2 => exact ⟨ts2, rfl⟩
            | error m => rw [hres] at hts; simp [Except.map] at hts
        · obtain ⟨ts2, hts2⟩ := (ih none).2 (fun x hx => h x (by simp [hx]))
          exact ⟨Token.number _ :: t :: ts2, by rw [hts2]; rfl⟩
      | none =>
        have hvc : validChar c = false := by simp [validChar, hd, ht]
        cases st <;>
          simp only [lexGo, hd, Bool.false_eq_true, if_false, ht] <;>
          simp [hvc]

/-- The first unrecognized character fails lexing, naming that character. -/
theorem lexGo_badchar (a : List Char) : ∀ (st : Option ℕ) (c : Char) (b : List Char),
    (∀ x ∈ a, validChar x = true) → validChar c = false →
    lexGo st (a ++ c :: b) = .error ("Unexpected character: " ++ String.mk [c]) := by
  induction a with
  | nil =>
    intro st c b _ hc
    have hd : isDigitChar c = false := by
      rcases h : isDigitChar c with _ | _
      · rfl
      · simp [validChar, h] at hc
    have ht : charTok c = none := by
      cases h : charTok c with
      | none => rfl
      | some t => simp [validChar, h] at hc
    cases st <;> simp [lexGo, hd, ht]
  | cons x a ih =>
    intro st c b hall hc
    have hx := hall x (by simp)
    by_cases hd : isDigitChar x = true
    · cases st <;>
        simp only [List.cons_append, lexGo, hd, if_true, List.append_eq] <;>
        exact ih _ c b (fun y hy => hall y (by simp [hy])) hc
    · rw [Bool.not_eq_true] at hd
      cases ht : charTok x with
      | some t =>
        cases st <;>
          simp only [List.cons_append, lexGo, hd, Bool.false_eq_true, if_false, ht,
            List.append_eq] <;>
          rw [ih none c b (fun y hy => hall y (by simp [hy])) hc] <;> rfl
      | none => simp [validChar, hd, ht] at hx

end DiceParser

namespace DiceParser

theorem decDigitsF_ofDigits : ∀ (fuel n : ℕ), n ≤ fuel →
    Nat.ofDigits 10 (decDigitsF fuel n) = n := by
  intro fuel
  induction fuel with
  | zero => intro n h; interval_cases n; simp [decDigitsF]
  | succ f ih =>
    intro n h
    cases n with
    | zero => simp [decDigitsF]
    | succ m =>
      rw [decDigitsF, Nat.ofDigits_cons, ih ((m + 1) / 10) (by omega)]
      omega

theorem decDigitsF_lt : ∀ (fuel n : ℕ), ∀ d ∈ decDigitsF fuel n, d < 10 := by
  intro fuel
  induction fuel with
  | zero => intro n d hd; simp [decDigitsF] at hd
  | succ f ih =>
    intro n d hd
    cases n with
    | zero => simp [decDigitsF] at hd
    | succ m =>
      rw [decDigitsF] at hd
      rcases List.mem_cons.1 hd with rfl | h2
      · exact Nat.mod_lt _ (by norm_num)
      · exact ih _ d h2

theorem digitChar_facts (d : ℕ) (h : d < 10) :
    isDigitChar (Nat.digitChar d) = true ∧ digitVal (Nat.digitChar d) = d ∧
    isWs (Nat.digitChar d) = false ∧ charTok (Nat.digitChar d) = none := by
  interval_cases d <;> exact ⟨by decide, by decide, by decide, by decide⟩

theorem decimalChars_digits (n : ℕ) :
    ∀ c ∈ decimalChars n, isDigitChar c = true ∧ isWs c = false := by
  unfold decimalChars
  by_cases h : n = 0
  · subst h
    intro c hc
    simp at hc
    subst hc
    exact ⟨by decide, by decide⟩
  · rw [if_neg h]
    intro c hc
    obtain ⟨d, hd, rfl⟩ := List.mem_map.1 hc
    have hlt := decDigitsF_lt n n d (List.mem_reverse.1 hd)
    exact ⟨(digitChar_facts d hlt).1, (digitChar_facts d hlt).2.2.1⟩

theorem decimalChars_ne_nil (n : ℕ) : decimalChars n ≠ [] := by
  unfold decimalChars
  by_cases h : n = 0
  · simp [h]
  · rw [if_neg h]
    cases n with
    | zero => omega
    | succ m =>
      rw [decDigitsF]
      simp

theorem charsVal_decimalChars (n : ℕ) (h : 0 < n) : charsVal (decimalChars n) = n := by
  unfold decimalChars charsVal
  rw [if_neg (by omega), List.map_map]
  have hmap : (decDigitsF n n).reverse.map (digitVal ∘ Nat.digitChar) =
      (decDigitsF n n).reverse := by
    have hid : ∀ x ∈ (decDigitsF n n).reverse, (digitVal ∘ Nat.digitChar) x = x :=
      fun x hx => (digitChar_facts x (decDigitsF_lt n n x (List.mem_reverse.1 hx))).2.1
    calc (decDigitsF n n).reverse.map (digitVal ∘ Nat.digitChar)
        = (decDigitsF n n).reverse.map id := List.map_congr_left hid
      _ = (decDigitsF n n).reverse := List.map_id _
  rw [hmap, List.reverse_reverse, decDigitsF_ofDigits n n le_rfl]

theorem lexer_decimal (n : ℕ) (h32 : n < 2 ^ 32) :
    lexer_new (decimalChars n) = .ok [Token.number n] := by
  by_cases h : n = 0
  · subst h
    with_unfolding_all rfl
  · have hdig := decimalChars_digits n
    have hfilter : (decimalChars n).filter (fun c => !isWs c) = decimalChars n := by
      apply List.filter_eq_self.2
      intro c hc
      simp [(hdig c hc).2]
    rw [lexer_new, hfilter]
    have hrun := lexGo_number (decimalChars n) [] (decimalChars_ne_nil n)
      (fun c hc => (hdig c hc).1) (by simp)
    simp only [List.append_nil] at hrun
    rw [hrun, charsVal_decimalChars n (by omega), Nat.mod_eq_of_lt h32]
    rfl

theorem parse_single_number (n : ℕ) :
    parse_expression 4 [Token.number n] 0 = .ok (.number n) [] := rfl

end DiceParser

namespace DiceParser

/-- C4 (amended): for every natural number n up to 2 ^ 24, feeding the decimal
text of n through the lexer and parser yields exactly the literal node
`Expression.number n` with no leftover tokens, and evaluating that node returns
the finite float n exactly, for every generator and roll log. -/
theorem C4_amended (n : ℕ) (h : n ≤ 2 ^ 24) :
    try_from (decimalChars n) = .ok (.number n) [] ∧
    ∀ (g : RNG) (log : Option (List ℕ)),
      eval (.number n) g log = .ok (.fin (n : ℚ)) g log := by
  constructor
  · unfold try_from
    rw [lexer_decimal n (lt_of_le_of_lt h (by norm_num))]
    exact parse_single_number n
  · exact eval_num_fin n h

theorem C4_amended_witness :
    try_from (decimalChars 7) = .ok (.number 7) [] ∧
    ∀ (g : RNG) (log : Option (List ℕ)),
      eval (.number 7) g log = .ok (.fin (7 : ℚ)) g log :=
  C4_amended 7 (by norm_num)

theorem decimalChars_16777217 :
    decimalChars 16777217 = ['1', '6', '7', '7', '7', '2', '1', '7'] := by
  with_unfolding_all rfl

theorem parse_16777217 :
    try_from ['1', '6', '7', '7', '7', '2', '1', '7'] = .ok (.number 16777217) [] := by
  with_unfolding_all rfl

theorem u32f_16777217 : u32_to_f32 16777217 = .fin 16777216 := by
  with_unfolding_all rfl

/-- C4 counterexample: the round-trip is NOT exact for all n. The decimal text
of 16777217 = 2 ^ 24 + 1 lexes and parses to `number 16777217`, but evaluation
converts the u32 to f32 with round-to-nearest-even, producing 16777216, which
differs from 16777217. -/
theorem C4_counterexample :
    decimalChars 16777217 = ['1', '6', '7', '7', '7', '2', '1', '7'] ∧
    try_from ['1', '6', '7', '7', '7', '2', '1', '7'] = .ok (.number 16777217) [] ∧
    (∀ (g : RNG) (log : Option (List ℕ)),
      eval (.number 16777217) g log = .ok (.fin 16777216) g log) ∧
    (16777216 : ℚ) ≠ (16777217 : ℚ) := by
  refine ⟨decimalChars_16777217, parse_16777217, ?_, by norm_num⟩
  intro g log
  rw [eval_number, u32f_16777217]

end DiceParser

namespace DiceParser

/-- C9: the lexer (1) discards all whitespace (lexing any string equals lexing
its non-whitespace projection), (2) succeeds iff every non-whitespace character
is a digit or one of + - * / ( ) d D, (3) canonicalises D to the operator d,
(4) turns each maximal run of decimal digits into a single Number token holding
its decimal value reduced mod 2 ^ 32 (the u32 wrap of the source's
wrapping accumulation), and (5) fails at the first other character with an
error naming that character. -/
theorem C9_lexer :
    (∀ l : List Char, lexer_new l = lexer_new (l.filter (fun c => !isWs c))) ∧
    (∀ l : List Char, (∃ ts, lexer_new l = .ok ts) ↔
      ∀ c ∈ l, isWs c = true ∨ validChar c = true) ∧
    (∀ l : List Char, lexGo none ('D' :: l) = lexGo none ('d' :: l) ∧
      lexGo none ('d' :: l) = (lexGo none l).map (fun ts => Token.op 'd' :: ts)) ∧
    (∀ run rest : List Char, run ≠ [] → (∀ c ∈ run, isDigitChar c = true) →
      (∀ c, rest.head? = some c → isDigitChar c = false) →
      lexGo none (run ++ rest) =
        (lexGo none rest).map (fun ts => Token.number (charsVal run % 2 ^ 32) :: ts)) ∧
    (∀ (a b : List Char) (c : Char),
      (∀ x ∈ a, isWs x = true ∨ validChar x = true) →
      isWs c = false → validChar c = false →
      lexer_new (a ++ c :: b) = .error ("Unexpected character: " ++ String.mk [c])) := by
  refine ⟨?_, ?_, ?_, lexGo_number, ?_⟩
  · intro l
    simp [lexer_new, List.filter_filter]
  · intro l
    rw [lexer_new, lexGo_ok_iff]
    constructor
    · intro h c hc
      by_cases hw : isWs c = true
      · exact .inl hw
      · exact .inr (h c (List.mem_filter.2 ⟨hc, by simp [hw]⟩))
    · intro h c hc
      obtain ⟨hcl, hcw⟩ := List.mem_filter.1 hc
      rcases h c hcl with hw | hv
      · rw [hw] at hcw
        simp at hcw
      · exact hv
  · intro l
    constructor
    · simp [lexGo, charTok, isDigitChar]
    · simp [lexGo, charTok, isDigitChar]
  · intro a b c hall hwc hvc
    unfold lexer_new
    rw [List.filter_append]
    have hcb : (c :: b).filter (fun x => !isWs x) =
        c :: b.filter (fun x => !isWs x) := by
      simp [hwc]
    rw [hcb]
    refine lexGo_badchar _ none c _ (fun x hx => ?_) hvc
    obtain ⟨hxa, hxw⟩ := List.mem_filter.1 hx
    rcases hall x hxa with hw | hv
    · rw [hw] at hxw
      simp at hxw
    · exact hv

theorem C9_lexer_witness : lexGo none ['4', '2'] = .ok [Token.number 42] := by
  have h := C9_lexer.2.2.2.1 ['4', '2'] [] (by simp) (by decide) (by simp)
  simp only [List.append_nil] at h
  rw [h]
  with_unfolding_all rfl

end DiceParser
